import Mathlib

/-!
Verification of the ytranscript repository: a shallow embedding of the bulk
transcript processor (src/lib/processor.ts), the loaders (src/loaders/index.ts,
the watch-history and watch-later loaders) and, modelled from the design
document where the source file is absent, the caption-track selector of
src/lib/fetcher.ts.  Effectful primitives (network fetch, file reads, URL and
JSON parsing, the wall clock) are abstracted as explicit oracles passed in as
arguments; sleeps, progress-callback invocations and yield times are recorded
as explicit traces so that temporal claims become claims about those traces.
-/

namespace YTranscript

/-! ## String helpers

JavaScript string primitives used by the source, re-expressed on the
character list underlying a Lean string so that every definition evaluates
by kernel reduction. -/

/-- Character-list prefix test, mirroring the JavaScript
`String.prototype.startsWith` used as `t.languageCode.startsWith(tag)`. -/
def startsWithL : List Char → List Char → Bool
  | [], _ => true
  | _ :: _, [] => false
  | a :: as, b :: bs => decide (a = b) && startsWithL as bs

/-- `s.startsWith(pre)` on Lean strings. -/
def jsStartsWith (s pre : String) : Bool :=
  startsWithL pre.data s.data

/-- Substring containment on character lists, mirroring
`String.prototype.includes`. -/
def containsL : List Char → List Char → Bool
  | l, sub =>
    if startsWithL sub l then true
    else
      match l with
      | [] => false
      | _ :: t => containsL t sub

/-- `s.includes(sub)` on Lean strings. -/
def jsIncludes (s sub : String) : Bool :=
  containsL s.data sub.data

/-- `s.slice(n)` / dropping a prefix of characters. -/
def strDrop (s : String) (n : Nat) : String :=
  ⟨s.data.drop n⟩

/-- Truthiness of `l.trim()` for a line `l`: true exactly when the line has a
non-whitespace character. -/
def trimTruthy (l : String) : Bool :=
  l.data.any (fun c => !c.isWhitespace)

/-- JavaScript `a || b` on strings: the empty string is falsy. -/
def jsOrStr (a b : String) : String :=
  if a = "" then b else a

/-! ## Data model

`src/types.ts` is not part of the staged sources; the record shapes below
follow the design document's data model (§3) and the way the fields are used
by the staged code.  Fields never read by any staged function (the channel
object of a history entry, the raw track URL) are elided. -/

/-- A candidate video record (`WatchHistoryMeta` in `src/types.ts`). -/
structure WatchHistoryMeta where
  videoId : String
  title : Option String := none
  url : Option String := none
  watchedAt : Option String := none
  source : String := "manual"
deriving Repr, DecidableEq

/-- One normalized transcript segment (times in seconds). -/
structure TranscriptSegment where
  text : String
  start : ℚ
  duration : ℚ
deriving Repr, DecidableEq

/-- A fetched transcript. -/
structure Transcript where
  videoId : String
  languageCode : String
  isAutoGenerated : Bool
  segments : List TranscriptSegment
deriving Repr, DecidableEq

/-- A value thrown by a fetch attempt: a JavaScript `Error` carrying a
message, or any other thrown value. -/
inductive Thrown where
  | errObj (message : String)
  | otherValue
deriving Repr, DecidableEq

/-- The message the processor extracts from a thrown value:
`error instanceof Error ? error.message : 'Unknown error'`. -/
def Thrown.message : Thrown → String
  | .errObj m => m
  | .otherValue => "Unknown error"

/-- The outcome of one `fetchTranscript` call: a transcript, or a thrown
failure.  The network layer is abstracted as an oracle
`String → FetchOutcome` indexed by the video id. -/
abbrev FetchOutcome := Except Thrown Transcript

/-- The per-attempt result record produced by the bulk scheduler. -/
structure TranscriptResult where
  meta : WatchHistoryMeta
  transcript : Option Transcript
  error : Option String := none
deriving Repr, DecidableEq

/-! ## mergeVideoSources (src/loaders/index.ts, lines 41-55)

The `Map` keyed by `videoId` is modelled as an insertion-ordered list with a
membership test; `Array.from(seen.values())` preserves insertion order, so
the list is the map. -/

/-- One step of the merge loop: `if (!seen.has(meta.videoId)) seen.set(...)`. -/
def insertIfNew (seen : List WatchHistoryMeta) (meta : WatchHistoryMeta) :
    List WatchHistoryMeta :=
  if seen.any (fun x => decide (x.videoId = meta.videoId)) then seen
  else seen ++ [meta]

/-- `mergeVideoSources(...sources)`: fold every source, in argument order,
into the insertion-ordered map. -/
def mergeVideoSources (sources : List (List WatchHistoryMeta)) :
    List WatchHistoryMeta :=
  sources.foldl (fun seen src => src.foldl insertIfNew seen) []

/-! ## Bulk processor (src/lib/processor.ts)

`processVideos` and `streamVideos` drive `fetchTranscript` over a candidate
list.  The fetch is an oracle `fetch : String → FetchOutcome`; for the stream
mode, attempt durations come from an oracle `dur : String → Nat` and the
embedding threads an explicit clock.  Sleeps are counted, progress-callback
invocations are recorded as a trace. -/

/-- The scheduler options destructured at the top of both entry points
(defaults from `src/lib/processor.ts` lines 10-12).  The options object also
carries fetch options (languages, timeout, proxy) that the scheduler forwards
unchanged; they live inside the fetch oracle here. -/
structure BulkOptions where
  concurrency : Nat := 4
  pauseAfter : Nat := 10
  pauseDuration : Nat := 5000
  skipIds : List String := []
deriving Repr, DecidableEq

/-- One invocation of the `onProgress` callback, with its three arguments. -/
structure ProgressCall where
  completed : Nat
  total : Nat
  result : TranscriptResult
deriving Repr, DecidableEq

/-- `processOne` (lines 41-49): run the fetch, catch any thrown failure and
convert it into a result carrying the extracted message.  Totality of this
function is the embedding of the catch-all. -/
def processOne (fetch : String → FetchOutcome) (meta : WatchHistoryMeta) :
    TranscriptResult :=
  match fetch meta.videoId with
  | .ok t => { meta := meta, transcript := some t }
  | .error e => { meta := meta, transcript := none, error := some e.message }

/-- The batch-building loop (lines 52-55):
`for (let i = 0; i < toProcess.length; i += pauseAfter) push(slice(i, i+pauseAfter))`.
The loop is not structurally recursive (`pauseAfter = 0` never advances `i`),
so it takes fuel; `none` models the loop failing to terminate within the
given fuel. -/
def batchLoop (pa : Nat) (l : List WatchHistoryMeta) :
    Nat → Nat → List (List WatchHistoryMeta) → Option (List (List WatchHistoryMeta))
  | fuel, i, acc =>
    if i < l.length then
      match fuel with
      | 0 => none
      | fuel' + 1 => batchLoop pa l fuel' (i + pa) (acc ++ [(l.drop i).take pa])
    else
      some acc

/-- The value the batch loop computes when it terminates: consecutive chunks
of size `pa` (for `pa ≥ 1`; total by recursion on the list). -/
def chunkList (pa : Nat) : List WatchHistoryMeta → List (List WatchHistoryMeta)
  | [] => []
  | x :: xs => (x :: xs.take (pa - 1)) :: chunkList pa (xs.drop (pa - 1))
termination_by l => l.length
decreasing_by
  simp only [List.length_cons, List.length_drop]
  omega

/-- One batch body (lines 60-67): each attempt runs `processOne`, increments
the shared `completed` counter and reports progress.  The embedding fixes the
schedule to dispatch order (the attempts are independent; under the
single-threaded event loop each `completed++` / `onProgress` pair runs
atomically per attempt). Returns the batch results and the progress trace. -/
def runBatch (fetch : String → FetchOutcome) (total : Nat) :
    List WatchHistoryMeta → Nat → List TranscriptResult × List ProgressCall
  | [], _ => ([], [])
  | m :: ms, completed =>
    let r := processOne fetch m
    let rest := runBatch fetch total ms (completed + 1)
    (r :: rest.1, ⟨completed + 1, total, r⟩ :: rest.2)

/-- A finished collect-mode run: the returned results, the trace of
`onProgress` invocations, and the number of inter-batch sleeps taken. -/
structure CollectRun where
  results : List TranscriptResult
  progress : List ProgressCall
  pauses : Nat
deriving Repr, DecidableEq

/-- The batch loop of lines 57-76: run every batch in order; after each batch
that is not the last, sleep iff `pauseDuration > 0` (line 73). -/
def processBatches (fetch : String → FetchOutcome) (total pd : Nat) :
    List (List WatchHistoryMeta) → Nat → CollectRun
  | [], _ => { results := [], progress := [], pauses := 0 }
  | b :: bs, completed =>
    let batch := runBatch fetch total b completed
    let rest := processBatches fetch total pd bs (completed + b.length)
    { results := batch.1 ++ rest.results
      progress := batch.2 ++ rest.progress
      pauses := (if bs ≠ [] ∧ 0 < pd then 1 else 0) + rest.pauses }

/-- `processVideos` (lines 17-79), collect mode.  `none` models the
non-terminating batch loop (reachable only for `pauseAfter = 0` on a
non-empty worklist); the fuel `toProcess.length` is enough for every
terminating run. -/
def processVideos (fetch : String → FetchOutcome)
    (videos : List WatchHistoryMeta) (options : BulkOptions) :
    Option CollectRun :=
  let toProcess := videos.filter (fun v => !(options.skipIds.contains v.videoId))
  if toProcess.isEmpty then some { results := [], progress := [], pauses := 0 }
  else
    match batchLoop options.pauseAfter toProcess toProcess.length 0 [] with
    | none => none
    | some batches =>
      some (processBatches fetch toProcess.length options.pauseDuration batches 0)

/-- One item yielded by the stream generator, with the attempt's start and
completion times on the explicit clock. -/
structure StreamYield where
  result : TranscriptResult
  startTime : Nat
  endTime : Nat
deriving Repr, DecidableEq

/-- A finished stream-mode run: the yielded items in yield order, the number
of sleeps taken, and the trace of `onProgress` invocations. -/
structure StreamRun where
  yields : List StreamYield
  pauses : Nat
  progress : List ProgressCall
deriving Repr, DecidableEq

/-- The loop of `streamVideos` (lines 105-126).  Each iteration awaits
`limit(...)` before yielding, so the next attempt starts only at the
previous attempt's completion time: the clock advances by the attempt's
duration, then by `pauseDuration` whenever the batch counter reaches
`pauseAfter` (lines 120-125, including after the last item). -/
def streamLoop (fetch : String → FetchOutcome) (dur : String → Nat)
    (pa pd : Nat) :
    List WatchHistoryMeta → Nat → Nat → List StreamYield × Nat
  | [], _, _ => ([], 0)
  | m :: ms, clock, pib =>
    let r := processOne fetch m
    let endT := clock + dur m.videoId
    if pa ≤ pib + 1 then
      let rest := streamLoop fetch dur pa pd ms (endT + (if 0 < pd then pd else 0)) 0
      (⟨r, clock, endT⟩ :: rest.1, (if 0 < pd then 1 else 0) + rest.2)
    else
      let rest := streamLoop fetch dur pa pd ms endT (pib + 1)
      (⟨r, clock, endT⟩ :: rest.1, rest.2)

/-- `streamVideos` (lines 84-127).  The options destructuring at lines 88-94
does not name `onProgress` (it stays inside the forwarded fetch options), and
the function body contains no call to it, so the progress trace of a stream
run is empty by construction. -/
def streamVideos (fetch : String → FetchOutcome) (dur : String → Nat)
    (videos : List WatchHistoryMeta) (options : BulkOptions) : StreamRun :=
  let toProcess := videos.filter (fun v => !(options.skipIds.contains v.videoId))
  if toProcess.isEmpty then { yields := [], pauses := 0, progress := [] }
  else
    let run := streamLoop fetch dur options.pauseAfter options.pauseDuration
      toProcess 0 0
    { yields := run.1, pauses := run.2, progress := [] }

/-! ## Identifier validation and the loaders -/

/-- The canonical video-identifier pattern `[A-Za-z0-9_-]{11}`. -/
def isIdChar (c : Char) : Bool :=
  c.isAlphanum || decide (c = '_') || decide (c = '-')

/-- An 11-character identifier over `[A-Za-z0-9_-]`. -/
def isValidVideoId (s : String) : Bool :=
  decide (s.data.length = 11) && s.data.all isIdChar

/-- The outcome of `new URL(raw)` for the components the loaders read.  URL
parsing is a platform builtin, abstracted as an oracle
`String → Option ParsedUrl` (`none` models the constructor throwing). -/
structure ParsedUrl where
  hostname : String
  searchV : Option String
  pathname : String
deriving Repr, DecidableEq

/-- `extractVideoIdFromUrl` of the watch-history loader (its file's lines
18-31): on a `youtube.com`-containing host return `searchParams.get('v')`
unchecked; on `youtu.be` return `pathname.slice(1)` unchecked; anything else
(or an unparsable URL) is `null`. -/
def extractVideoIdFromUrl (parseUrl : String → Option ParsedUrl)
    (url : String) : Option String :=
  match parseUrl url with
  | none => none
  | some p =>
    if jsIncludes p.hostname "youtube.com" then p.searchV
    else if p.hostname = "youtu.be" then some (strDrop p.pathname 1)
    else none

/-- One entry of the Takeout watch-history JSON, with the fields the loader
reads (the channel subtitle object is elided: no claim mentions it). -/
structure TakeoutHistoryItem where
  title : Option String := none
  titleUrl : Option String := none
  time : Option String := none
deriving Repr, DecidableEq

/-- Truthiness of an optional string (`if (!url) continue`). -/
def optTruthy : Option String → Bool
  | none => false
  | some s => decide (s ≠ "")

/-- `loadWatchHistory` (its file's lines 36-63), after the file read and
`JSON.parse`: keep every item with a truthy `titleUrl` whose URL yields a
truthy video id, and record it with `source: 'history'`. -/
def loadWatchHistory (parseUrl : String → Option ParsedUrl)
    (items : List TakeoutHistoryItem) : List WatchHistoryMeta :=
  items.foldr
    (fun item acc =>
      match item.titleUrl with
      | none => acc
      | some url =>
        if url = "" then acc
        else
          match extractVideoIdFromUrl parseUrl url with
          | none => acc
          | some vid =>
            if vid = "" then acc
            else
              { videoId := vid, title := item.title, url := some url,
                watchedAt := item.time, source := "history" } :: acc)
    []

/-- A parsed CSV row: header/value pairs; a missing or short column reads as
the empty string (`values[j] || ''`). -/
abbrev CSVRow := List (String × String)

/-- `row['Key']` with the absent-column default. -/
def rowGet (row : CSVRow) (k : String) : String :=
  ((row.find? (fun p => decide (p.1 = k))).map Prod.snd).getD ""

/-- `loadWatchLater` (its file's lines 69-96) after the file read and CSV
parse: take the first truthy of the three id columns, skip rows without one,
and pass the value through with `source: 'watch_later'`.  The `addedAt`
value is stored as-is (possibly empty). -/
def loadWatchLater (rows : List CSVRow) : List WatchHistoryMeta :=
  rows.foldr
    (fun row acc =>
      let videoId := jsOrStr (rowGet row "Video ID")
        (jsOrStr (rowGet row "video_id") (rowGet row "Video Id"))
      let addedAt := jsOrStr (rowGet row "Playlist Video Creation Timestamp")
        (jsOrStr (rowGet row "added_at") (rowGet row "Added At"))
      if videoId = "" then acc
      else { videoId := videoId, watchedAt := some addedAt,
             source := "watch_later" } :: acc)
    []

/-- Modelled from the spec: `extractVideoId` lives in `src/lib/fetcher.ts`,
which is not among the staged sources (only its callers and tests are).
Design document §4.1 with the §3 invariant: a bare string matching the
11-character pattern is returned directly; otherwise the input is parsed as a
URL and the identifier is taken from the `v` query parameter of the watch
host, the path of the short-link host, or an embed-style path prefix; an
identifier failing validation is rejected, never passed through. -/
def extractVideoId (parseUrl : String → Option ParsedUrl)
    (input : String) : Option String :=
  if isValidVideoId input then some input
  else
    match parseUrl input with
    | none => none
    | some p =>
      let cand : Option String :=
        if p.hostname = "www.youtube.com" ∨ p.hostname = "youtube.com" ∨
            p.hostname = "m.youtube.com" then
          if jsStartsWith p.pathname "/embed/" then some (strDrop p.pathname 7)
          else p.searchV
        else if p.hostname = "youtu.be" then some (strDrop p.pathname 1)
        else none
      match cand with
      | none => none
      | some id => if isValidVideoId id then some id else none

/-- `fromVideoIds` (src/loaders/index.ts, lines 16-35): resolve each manual
input through `extractVideoId`, skipping inputs that do not resolve. -/
def fromVideoIds (parseUrl : String → Option ParsedUrl)
    (inputs : List String) : List WatchHistoryMeta :=
  inputs.foldr
    (fun input acc =>
      match extractVideoId parseUrl input with
      | none => acc
      | some vid =>
        { videoId := vid,
          url := some (if jsStartsWith input "http" then input
            else "https://www.youtube.com/watch?v=" ++ vid),
          source := "manual" } :: acc)
    []

/-! ## loadProcessedIds (src/loaders/index.ts, lines 60-91)

The JSONL resume file.  `JSON.parse` is a platform builtin, abstracted as an
oracle `String → Option Json` (`none` models a throw on a malformed line);
the file read is abstracted as `Option String` (`none` models a missing or
unreadable file, both caught by the try/catch blocks). -/

/-- A parsed JSON value. -/
inductive Json where
  | null
  | bool (b : Bool)
  | num (n : Int)
  | str (s : String)
  | arr (elems : List Json)
  | obj (fields : List (String × Json))

/-- The SameValueZero test a JavaScript `Set` deduplicates with: value
equality on primitives; two parsed objects or arrays are distinct references,
never equal. -/
def jsSame : Json → Json → Bool
  | .null, .null => true
  | .bool a, .bool b => decide (a = b)
  | .num a, .num b => decide (a = b)
  | .str a, .str b => decide (a = b)
  | _, _ => false

/-- Property access `x[k]` on a parsed value: defined only on objects
(optional chaining and the surrounding truthiness checks make every other
case read as absent). -/
def Json.getField : Json → String → Option Json
  | .obj fs, k => (fs.find? (fun p => decide (p.1 = k))).map Prod.snd
  | _, _ => none

/-- JavaScript truthiness of a parsed value. -/
def Json.truthy : Json → Bool
  | .null => false
  | .bool b => b
  | .num n => decide (n ≠ 0)
  | .str s => decide (s ≠ "")
  | .arr _ => true
  | .obj _ => true

/-- The id a parsed record contributes (lines 76-81): `record.meta?.videoId`
if truthy, else `record.videoId` if truthy, else nothing. -/
def recordId (j : Json) : Option Json :=
  let mv := (j.getField "meta").bind (fun m => m.getField "videoId")
  match mv with
  | some v => if v.truthy then some v else topLevel
  | none => topLevel
where
  topLevel : Option Json :=
    match j.getField "videoId" with
    | some v => if v.truthy then some v else none
    | none => none

/-- `Set.add` on the insertion-ordered model of a JavaScript `Set`. -/
def setAdd (s : List Json) (v : Json) : List Json :=
  if s.any (fun x => jsSame x v) then s else s ++ [v]

/-- The body of the line loop (lines 74-85): parse the line, skipping it if
the parse throws, and add its id, if any, to the set. -/
def processLine (parse : String → Option Json) (ids : List Json)
    (line : String) : List Json :=
  match parse line with
  | none => ids
  | some record =>
    match recordId record with
    | none => ids
    | some v => setAdd ids v

/-- `loadProcessedIds`: `none` content (missing or unreadable file) gives the
empty set; otherwise split into lines, keep the lines whose trim is truthy,
and fold each kept line into the set. -/
def loadProcessedIds (parse : String → Option Json)
    (content : Option String) : List Json :=
  match content with
  | none => []
  | some text =>
    let lines := (text.splitOn "\n").filter trimTruthy
    lines.foldl (processLine parse) []

/-! ## Track selector

Modelled from the spec: the caption-track selector lives in
`src/lib/fetcher.ts`, which is not among the staged sources.  The definitions
below follow design document §4.3 word for word (the repository's
`how-it-works` document states the same algorithm). -/

/-- Whether a track is manually authored or produced by speech recognition
(`kind: "asr"` upstream). -/
inductive TrackKind where
  | manual
  | autoGenerated
deriving Repr, DecidableEq

/-- One available caption track. -/
structure CaptionTrack where
  languageCode : String
  kind : TrackKind
  displayName : Option String := none
deriving Repr, DecidableEq

/-- Modelled from the spec (§4.3 step 2): the tracks whose `languageCode`
starts with the given tag, in original order. -/
def matchingTracks (tracks : List CaptionTrack) (lang : String) :
    List CaptionTrack :=
  tracks.filter (fun t => jsStartsWith t.languageCode lang)

/-- The manual-kind test used by the selector. -/
def isManualB (t : CaptionTrack) : Bool :=
  decide (t.kind = TrackKind.manual)

/-- Modelled from the spec (§4.3 step 2): within one language tag's matching
subset, the first manual track in original order, else the subset's first
track, else nothing. -/
def selectForLang (tracks : List CaptionTrack) (lang : String) :
    Option CaptionTrack :=
  match (matchingTracks tracks lang).find? isManualB with
  | some t => some t
  | none => (matchingTracks tracks lang).head?

/-- Modelled from the spec (§4.3 step 2): try each preferred tag in order. -/
def selectPreferred (tracks : List CaptionTrack) :
    List String → Option CaptionTrack
  | [] => none
  | lang :: rest =>
    match selectForLang tracks lang with
    | some t => some t
    | none => selectPreferred tracks rest

/-- Modelled from the spec (§4.3): empty catalog gives nothing; otherwise the
preferred-language scan, falling back to the catalog's first track
unconditionally. -/
def selectTrack (tracks : List CaptionTrack) (preferred : List String) :
    Option CaptionTrack :=
  match tracks with
  | [] => none
  | t0 :: _ =>
    match selectPreferred tracks preferred with
    | some t => some t
    | none => some t0

/-! ## The claimed stream-mode semantics

A second model, written from the spec's words rather than from the source,
for the refinement comparison of the stream-mode claim: within a batch, up
to `concurrency` attempts run concurrently and each result is yielded at its
attempt's completion time, in completion order. -/

/-- Minimum of a list of clock values (0 on the empty list; the pool is
non-empty whenever `concurrency ≥ 1`). -/
def listMin : List Nat → Nat
  | [] => 0
  | x :: xs => xs.foldl Nat.min x

/-- Replace the first occurrence of a value (a worker becoming busy until its
new finish time). -/
def replaceFirst : List Nat → Nat → Nat → List Nat
  | [], _, _ => []
  | x :: xs, old, new =>
    if x = old then new :: xs else x :: replaceFirst xs old new

/-- Modelled from the spec (§4.6 step 3, §5): dispatch the tasks in input
order into a pool of workers whose entries are next-free times; each task
starts at the earliest free time and finishes after its duration.  Returns
(start, finish) per task in dispatch order. -/
def poolLoop : List Nat → List Nat → List (Nat × Nat)
  | _, [] => []
  | avail, d :: ds =>
    let t := listMin avail
    (t, t + d) :: poolLoop (replaceFirst avail t (t + d)) ds

/-- Stable insertion by finish time. -/
def insertByFinish (x : TranscriptResult × Nat) :
    List (TranscriptResult × Nat) → List (TranscriptResult × Nat)
  | [] => [x]
  | y :: ys => if y.2 < x.2 then y :: insertByFinish x ys else x :: y :: ys

/-- Stable sort by finish time: completion order. -/
def sortByFinish : List (TranscriptResult × Nat) → List (TranscriptResult × Nat)
  | [] => []
  | x :: xs => insertByFinish x (sortByFinish xs)

/-- Modelled from the spec (§4.6): the yield sequence the stream-mode claim
describes for one batch — each attempt's result paired with its completion
time under concurrent dispatch into `conc` workers, yielded in completion
order.  (The claim's counterexample uses a worklist that fits in one batch.) -/
def specBatchYields (fetch : String → FetchOutcome) (dur : String → Nat)
    (conc : Nat) (batch : List WatchHistoryMeta) :
    List (TranscriptResult × Nat) :=
  let sched := poolLoop (List.replicate conc 0)
    (batch.map (fun m => dur m.videoId))
  sortByFinish ((batch.zip sched).map
    (fun p => (processOne fetch p.1, p.2.2)))

/-! ## Lemmas on the batching loop -/

lemma batchLoop_stop (pa : Nat) (l : List WatchHistoryMeta) (fuel i : Nat)
    (acc : List (List WatchHistoryMeta)) (h : ¬ i < l.length) :
    batchLoop pa l fuel i acc = some acc := by
  cases fuel <;> simp [batchLoop, h]

lemma batchLoop_zero (pa : Nat) (l : List WatchHistoryMeta) (i : Nat)
    (acc : List (List WatchHistoryMeta)) (h : i < l.length) :
    batchLoop pa l 0 i acc = none := by
  simp [batchLoop, h]

lemma batchLoop_succ (pa : Nat) (l : List WatchHistoryMeta) (fuel i : Nat)
    (acc : List (List WatchHistoryMeta)) (h : i < l.length) :
    batchLoop pa l (fuel + 1) i acc =
      batchLoop pa l fuel (i + pa) (acc ++ [(l.drop i).take pa]) := by
  conv_lhs => rw [batchLoop]
  simp [h]

lemma chunkList_nil (pa : Nat) : chunkList pa [] = [] := by
  simp [chunkList]

lemma chunkList_cons (pa : Nat) (x : WatchHistoryMeta)
    (xs : List WatchHistoryMeta) :
    chunkList pa (x :: xs) =
      (x :: xs.take (pa - 1)) :: chunkList pa (xs.drop (pa - 1)) := by
  rw [chunkList]

/-- The chunks concatenate back to the original list: the batch partition
covers every element exactly once, in input order. -/
lemma chunkList_join (pa : Nat) (l : List WatchHistoryMeta) :
    (chunkList pa l).flatten = l := by
  have key : ∀ n (l : List WatchHistoryMeta), l.length ≤ n →
      (chunkList pa l).flatten = l := by
    intro n
    induction n with
    | zero =>
      intro l h
      have : l = [] := List.eq_nil_of_length_eq_zero (Nat.le_zero.mp h)
      simp [this, chunkList_nil]
    | succ n ih =>
      intro l h
      match l with
      | [] => simp [chunkList_nil]
      | x :: xs =>
        rw [chunkList_cons]
        have hlen : (xs.drop (pa - 1)).length ≤ n := by
          simp only [List.length_drop]
          simp only [List.length_cons] at h
          omega
        simp only [List.flatten_cons, ih _ hlen]
        simp [List.take_append_drop]
  exact key l.length l le_rfl

/-- Every chunk is non-empty and no longer than the batch size. -/
lemma chunkList_sizes (pa : Nat) (hpa : 1 ≤ pa) (l : List WatchHistoryMeta) :
    ∀ b ∈ chunkList pa l, b ≠ [] ∧ b.length ≤ pa := by
  have key : ∀ n (l : List WatchHistoryMeta), l.length ≤ n →
      ∀ b ∈ chunkList pa l, b ≠ [] ∧ b.length ≤ pa := by
    intro n
    induction n with
    | zero =>
      intro l h
      have : l = [] := List.eq_nil_of_length_eq_zero (Nat.le_zero.mp h)
      simp [this, chunkList_nil]
    | succ n ih =>
      intro l h b hb
      match l with
      | [] => simp [chunkList_nil] at hb
      | x :: xs =>
        rw [chunkList_cons] at hb
        rcases List.mem_cons.mp hb with hb | hb
        · subst hb
          refine ⟨by simp, ?_⟩
          simp only [List.length_cons, List.length_take]
          omega
        · exact ih (xs.drop (pa - 1))
            (by simp only [List.length_drop]; simp only [List.length_cons] at h; omega) b hb
  exact key l.length l le_rfl

/-- Every chunk except possibly the last has exactly the batch size. -/
lemma chunkList_dropLast_sizes (pa : Nat) (hpa : 1 ≤ pa)
    (l : List WatchHistoryMeta) :
    ∀ b ∈ (chunkList pa l).dropLast, b.length = pa := by
  have key : ∀ n (l : List WatchHistoryMeta), l.length ≤ n →
      ∀ b ∈ (chunkList pa l).dropLast, b.length = pa := by
    intro n
    induction n with
    | zero =>
      intro l h
      have : l = [] := List.eq_nil_of_length_eq_zero (Nat.le_zero.mp h)
      simp [this, chunkList_nil]
    | succ n ih =>
      intro l h b hb
      match l with
      | [] => simp [chunkList_nil] at hb
      | x :: xs =>
        rw [chunkList_cons] at hb
        rcases hrest : chunkList pa (xs.drop (pa - 1)) with _ | ⟨c, cs⟩
        · rw [hrest] at hb
          simp at hb
        · rw [hrest] at hb
          rw [List.dropLast_cons_of_ne_nil (by simp)] at hb
          rcases List.mem_cons.mp hb with hb | hb
          · subst hb
            have hne : xs.drop (pa - 1) ≠ [] := by
              intro hnil
              rw [hnil, chunkList_nil] at hrest
              exact List.noConfusion hrest
            have : pa - 1 < xs.length := by
              by_contra hge
              exact hne (List.drop_eq_nil_of_le (Nat.le_of_not_lt hge))
            simp only [List.length_cons, List.length_take]
            omega
          · have := ih (xs.drop (pa - 1))
              (by simp only [List.length_drop]; simp only [List.length_cons] at h; omega)
            rw [hrest] at this
            exact this b hb
  exact key l.length l le_rfl

/-- With positive batch size and enough fuel, the batch loop terminates and
returns exactly the chunk partition. -/
lemma batchLoop_eq_chunkList (pa : Nat) (hpa : 1 ≤ pa)
    (l : List WatchHistoryMeta) :
    ∀ fuel i acc, l.length - i ≤ fuel * pa →
      batchLoop pa l fuel i acc = some (acc ++ chunkList pa (l.drop i)) := by
  intro fuel
  induction fuel with
  | zero =>
    intro i acc h
    have hi : ¬ i < l.length := by omega
    rw [batchLoop_stop pa l 0 i acc hi]
    have : l.drop i = [] := List.drop_eq_nil_of_le (by omega)
    simp [this, chunkList_nil]
  | succ fuel ih =>
    intro i acc h
    by_cases hi : i < l.length
    · rw [batchLoop_succ pa l fuel i acc hi]
      have hmul : (fuel + 1) * pa = fuel * pa + pa := by ring
      rw [ih (i + pa) (acc ++ [(l.drop i).take pa]) (by omega)]
      have hstep : chunkList pa (l.drop i) =
          (l.drop i).take pa :: chunkList pa (l.drop (i + pa)) := by
        rcases hdrop : l.drop i with _ | ⟨y, ys⟩
        · exfalso
          have : l.length ≤ i := List.drop_eq_nil_iff.mp hdrop
          omega
        · obtain ⟨k, rfl⟩ := Nat.exists_eq_add_of_le hpa
          have hdrop2 : l.drop (i + (1 + k)) = ys.drop k := by
            rw [← List.drop_drop (1 + k) i l, hdrop]
            simp [Nat.add_comm 1 k]
          rw [chunkList_cons, hdrop2]
          simp [Nat.add_comm 1 k]
      rw [hstep]
      simp
    · rw [batchLoop_stop pa l (fuel + 1) i acc hi]
      have : l.drop i = [] := List.drop_eq_nil_of_le (by omega)
      simp [this, chunkList_nil]

/-- With batch size zero on a non-empty worklist, the loop index never
advances: no amount of fuel completes the loop. -/
lemma batchLoop_zero_pa_diverges (l : List WatchHistoryMeta) (i : Nat)
    (hi : i < l.length) :
    ∀ fuel acc, batchLoop 0 l fuel i acc = none := by
  intro fuel
  induction fuel with
  | zero => intro acc; exact batchLoop_zero 0 l i acc hi
  | succ fuel ih =>
    intro acc
    rw [batchLoop_succ 0 l fuel i acc hi]
    simpa using ih (acc ++ [(l.drop i).take 0])

/-! ## Lemmas on the collect-mode run -/

/-- The shape of the progress trace: one call per result, with the running
counter and the fixed total. -/
def progressTrace (total : Nat) : Nat → List TranscriptResult → List ProgressCall
  | _, [] => []
  | c, r :: rs => ⟨c + 1, total, r⟩ :: progressTrace total (c + 1) rs

lemma progressTrace_append (total : Nat) (xs ys : List TranscriptResult) :
    ∀ c, progressTrace total c (xs ++ ys) =
      progressTrace total c xs ++ progressTrace total (c + xs.length) ys := by
  induction xs with
  | nil => intro c; simp [progressTrace]
  | cons x xs ih =>
    intro c
    simp only [List.cons_append, progressTrace, List.append_eq, ih (c + 1),
      List.length_cons]
    have h : c + 1 + xs.length = c + (xs.length + 1) := by omega
    rw [h]

lemma progressTrace_length (total : Nat) (rs : List TranscriptResult) :
    ∀ c, (progressTrace total c rs).length = rs.length := by
  induction rs with
  | nil => intro c; simp [progressTrace]
  | cons r rs ih => intro c; simp [progressTrace, ih]

lemma progressTrace_getElem (total : Nat) (rs : List TranscriptResult) :
    ∀ c k, (progressTrace total c rs)[k]? =
      (rs[k]?).map (fun r => (⟨c + k + 1, total, r⟩ : ProgressCall)) := by
  induction rs with
  | nil => intro c k; simp [progressTrace]
  | cons r rs ih =>
    intro c k
    match k with
    | 0 => simp [progressTrace]
    | k + 1 =>
      simp only [progressTrace, List.getElem?_cons_succ, ih (c + 1) k]
      cases h : rs[k]? with
      | none => rfl
      | some r2 =>
        have harith : c + 1 + k + 1 = c + (k + 1) + 1 := by omega
        simp [harith]

lemma runBatch_eq (fetch : String → FetchOutcome) (total : Nat)
    (b : List WatchHistoryMeta) : ∀ c,
    runBatch fetch total b c =
      (b.map (processOne fetch),
        progressTrace total c (b.map (processOne fetch))) := by
  induction b with
  | nil => intro c; simp [runBatch, progressTrace]
  | cons m ms ih =>
    intro c
    simp only [runBatch, ih (c + 1), List.map_cons, progressTrace]

lemma processBatches_spec (fetch : String → FetchOutcome) (total pd : Nat)
    (bs : List (List WatchHistoryMeta)) : ∀ c,
    (processBatches fetch total pd bs c).results =
        bs.flatten.map (processOne fetch) ∧
    (processBatches fetch total pd bs c).progress =
        progressTrace total c (bs.flatten.map (processOne fetch)) ∧
    (processBatches fetch total pd bs c).pauses =
        (if 0 < pd then bs.length - 1 else 0) := by
  induction bs with
  | nil => intro c; simp [processBatches, progressTrace]
  | cons b bs ih =>
    intro c
    obtain ⟨ihr, ihp, ihn⟩ := ih (c + b.length)
    refine ⟨?_, ?_, ?_⟩
    · simp [processBatches, runBatch_eq, ihr]
    · simp only [processBatches, runBatch_eq, ihp, List.flatten_cons,
        List.map_append, progressTrace_append, List.length_map]
    · simp only [processBatches, ihn, List.length_cons]
      rcases Nat.eq_zero_or_pos pd with hpd | hpd
      · simp [hpd]
      · rcases bs with _ | ⟨b2, bs⟩
        · simp [hpd]
        · simp only [hpd, if_true, ne_eq, reduceCtorEq, not_false_iff,
            true_and, List.length_cons]
          omega

/-- With a positive batch size, `processVideos` terminates and equals the
run over the chunk partition of the filtered worklist. -/
lemma processVideos_eq (fetch : String → FetchOutcome)
    (videos : List WatchHistoryMeta) (opts : BulkOptions)
    (hpa : 1 ≤ opts.pauseAfter) :
    processVideos fetch videos opts =
      some (processBatches fetch
        (videos.filter (fun v => !(opts.skipIds.contains v.videoId))).length
        opts.pauseDuration
        (chunkList opts.pauseAfter
          (videos.filter (fun v => !(opts.skipIds.contains v.videoId)))) 0) := by
  unfold processVideos
  set toP := videos.filter (fun v => !(opts.skipIds.contains v.videoId)) with htoP
  by_cases hemp : toP.isEmpty
  · have : toP = [] := List.isEmpty_iff.mp hemp
    simp [hemp, this, chunkList_nil, processBatches]
  · have hbl := batchLoop_eq_chunkList opts.pauseAfter hpa toP toP.length 0 []
      (by
        have := Nat.le_mul_of_pos_right toP.length hpa
        omega)
    rw [List.drop_zero] at hbl
    simp [hemp, hbl]

/-! ## Lemmas on the stream-mode run -/

lemma streamLoop_results (fetch : String → FetchOutcome) (dur : String → Nat)
    (pa pd : Nat) : ∀ (ms : List WatchHistoryMeta) (clock pib : Nat),
    (streamLoop fetch dur pa pd ms clock pib).1.map (fun y => y.result) =
      ms.map (processOne fetch) := by
  intro ms
  induction ms with
  | nil => intro clock pib; simp [streamLoop]
  | cons m ms ih =>
    intro clock pib
    by_cases h : pa ≤ pib + 1 <;> simp [streamLoop, h, ih]

lemma streamLoop_pauses (fetch : String → FetchOutcome) (dur : String → Nat)
    (pa pd : Nat) (hpa : 1 ≤ pa) :
    ∀ (ms : List WatchHistoryMeta) (clock pib : Nat), pib < pa →
    (streamLoop fetch dur pa pd ms clock pib).2 =
      (if 0 < pd then (pib + ms.length) / pa else 0) := by
  intro ms
  induction ms with
  | nil =>
    intro clock pib hpib
    simp [streamLoop, Nat.div_eq_of_lt hpib]
  | cons m ms ih =>
    intro clock pib hpib
    by_cases h : pa ≤ pib + 1
    · have hpib1 : pib + 1 = pa := by omega
      simp only [streamLoop, h, if_true]
      rw [ih _ 0 (by omega)]
      have harith : pib + (m :: ms).length = ms.length + pa := by
        simp only [List.length_cons]
        omega
      rw [harith, Nat.add_div_right _ (by omega), Nat.zero_add]
      rcases Nat.eq_zero_or_pos pd with hpd | hpd
      · simp [hpd]
      · simp [hpd]
        omega
    · simp only [streamLoop, h, if_false]
      rw [ih _ (pib + 1) (by omega)]
      have harith : pib + 1 + ms.length = pib + (m :: ms).length := by
        simp only [List.length_cons]
        omega
      rw [harith]

lemma streamLoop_clock_le (fetch : String → FetchOutcome)
    (dur : String → Nat) (pa pd : Nat) :
    ∀ (ms : List WatchHistoryMeta) (clock pib : Nat),
    ∀ y ∈ (streamLoop fetch dur pa pd ms clock pib).1, clock ≤ y.startTime := by
  intro ms
  induction ms with
  | nil => intro clock pib y hy; simp [streamLoop] at hy
  | cons m ms ih =>
    intro clock pib y hy
    by_cases h : pa ≤ pib + 1 <;>
    · simp only [streamLoop, h, if_true, if_false, List.mem_cons] at hy
      rcases hy with hy | hy
      · subst hy; exact le_rfl
      · have := ih _ _ y hy
        omega

/-- Consecutive yields never overlap: each attempt starts no earlier than
the previous attempt's completion. -/
lemma streamLoop_chain (fetch : String → FetchOutcome) (dur : String → Nat)
    (pa pd : Nat) : ∀ (ms : List WatchHistoryMeta) (clock pib : Nat),
    List.Chain' (fun a b => a.endTime ≤ b.startTime)
      (streamLoop fetch dur pa pd ms clock pib).1 := by
  intro ms
  induction ms with
  | nil => intro clock pib; simp [streamLoop]
  | cons m ms ih =>
    intro clock pib
    by_cases h : pa ≤ pib + 1 <;>
    · simp only [streamLoop, h, if_true, if_false]
      rw [List.chain'_cons']
      refine ⟨?_, ih _ _⟩
      intro b hb
      have hcl := streamLoop_clock_le fetch dur pa pd ms _ _ b
        (List.mem_of_mem_head? hb)
      dsimp only at hcl ⊢
      omega

lemma streamVideos_yields (fetch : String → FetchOutcome)
    (dur : String → Nat) (videos : List WatchHistoryMeta)
    (opts : BulkOptions) :
    (streamVideos fetch dur videos opts).yields.map (fun y => y.result) =
      (videos.filter (fun v => !(opts.skipIds.contains v.videoId))).map
        (processOne fetch) := by
  unfold streamVideos
  set toP := videos.filter (fun v => !(opts.skipIds.contains v.videoId)) with htoP
  by_cases hemp : toP.isEmpty
  · have : toP = [] := List.isEmpty_iff.mp hemp
    simp [hemp, this]
  · simp [hemp, streamLoop_results]

lemma streamVideos_pauses (fetch : String → FetchOutcome)
    (dur : String → Nat) (videos : List WatchHistoryMeta)
    (opts : BulkOptions) (hpa : 1 ≤ opts.pauseAfter) :
    (streamVideos fetch dur videos opts).pauses =
      (if 0 < opts.pauseDuration then
        (videos.filter (fun v => !(opts.skipIds.contains v.videoId))).length /
          opts.pauseAfter
      else 0) := by
  unfold streamVideos
  set toP := videos.filter (fun v => !(opts.skipIds.contains v.videoId)) with htoP
  by_cases hemp : toP.isEmpty
  · have : toP = [] := List.isEmpty_iff.mp hemp
    simp [hemp, this]
  · rw [if_neg (by simpa using hemp)]
    simpa using streamLoop_pauses fetch dur opts.pauseAfter opts.pauseDuration
      hpa toP 0 0 (by omega)

lemma streamVideos_progress (fetch : String → FetchOutcome)
    (dur : String → Nat) (videos : List WatchHistoryMeta)
    (opts : BulkOptions) :
    (streamVideos fetch dur videos opts).progress = [] := by
  unfold streamVideos
  dsimp only
  split <;> rfl

lemma streamVideos_chain (fetch : String → FetchOutcome)
    (dur : String → Nat) (videos : List WatchHistoryMeta)
    (opts : BulkOptions) :
    List.Chain' (fun a b => a.endTime ≤ b.startTime)
      (streamVideos fetch dur videos opts).yields := by
  unfold streamVideos
  dsimp only
  split
  · simp
  · exact streamLoop_chain fetch dur opts.pauseAfter opts.pauseDuration _ 0 0

/-! ## Sample inputs for witnesses and counterexamples -/

/-- A candidate video. -/
def mA : WatchHistoryMeta := { videoId := "a" }

/-- Another candidate video. -/
def mB : WatchHistoryMeta := { videoId := "b" }

/-- A fetch oracle on which every attempt throws an `Error`. -/
def failFetch : String → FetchOutcome := fun _ => .error (.errObj "HTTP 429")

/-- Attempt durations: video `a` is slow, everything else is fast. -/
def durAB : String → Nat := fun s => if s = "a" then 10 else 1

/-- The all-default options object. -/
def defOpts : BulkOptions := {}

/-- Options with two attempts per pacing batch and a positive pause. -/
def opts5 : BulkOptions := { pauseAfter := 2, pauseDuration := 100 }

/-- Options with a concurrency of two. -/
def cexOpts : BulkOptions := { concurrency := 2 }

/-! ## Claim theorems: the bulk scheduler -/

/-- C1: for every candidate list and skip set, and any per-attempt outcomes,
collect mode returns exactly one TranscriptResult per candidate whose id is
not in `skipIds`, in input order — the empty list (not a failure) when no
candidate remains.  The hypothesis `1 ≤ pauseAfter` excludes only the
non-terminating `pauseAfter = 0` configuration settled under C9. -/
theorem processVideos_completeness (fetch : String → FetchOutcome)
    (videos : List WatchHistoryMeta) (opts : BulkOptions)
    (hpa : 1 ≤ opts.pauseAfter) :
    ∃ run, processVideos fetch videos opts = some run ∧
      run.results =
        (videos.filter (fun v => !(opts.skipIds.contains v.videoId))).map
          (processOne fetch) := by
  refine ⟨_, processVideos_eq fetch videos opts hpa, ?_⟩
  obtain ⟨hres, -, -⟩ := processBatches_spec fetch
    (videos.filter (fun v => !(opts.skipIds.contains v.videoId))).length
    opts.pauseDuration
    (chunkList opts.pauseAfter
      (videos.filter (fun v => !(opts.skipIds.contains v.videoId)))) 0
  rw [hres, chunkList_join]

/-- Witness for C1: skipping `b` leaves exactly the one result for `a`. -/
theorem processVideos_completeness_witness :
    ∃ run, processVideos failFetch [mA, mB] { skipIds := ["b"] } = some run ∧
      run.results =
        ([mA, mB].filter (fun v =>
          !((({ skipIds := ["b"] } : BulkOptions)).skipIds.contains v.videoId))).map
          (processOne failFetch) :=
  processVideos_completeness failFetch [mA, mB] { skipIds := ["b"] } (by decide)

/-- C2: a failure thrown by a fetch attempt is caught and converted into a
TranscriptResult with a null transcript carrying the extracted message, and
in both modes every produced result is the total `processOne` of its
candidate — no failure escapes the scheduler. -/
theorem scheduler_failure_containment (fetch : String → FetchOutcome)
    (dur : String → Nat) (videos : List WatchHistoryMeta)
    (opts : BulkOptions) :
    (∀ (m : WatchHistoryMeta) (e : Thrown), fetch m.videoId = .error e →
      processOne fetch m =
        { meta := m, transcript := none, error := some e.message }) ∧
    (1 ≤ opts.pauseAfter → ∀ run, processVideos fetch videos opts = some run →
      run.results =
        (videos.filter (fun v => !(opts.skipIds.contains v.videoId))).map
          (processOne fetch)) ∧
    ((streamVideos fetch dur videos opts).yields.map (fun y => y.result) =
      (videos.filter (fun v => !(opts.skipIds.contains v.videoId))).map
        (processOne fetch)) := by
  refine ⟨?_, ?_, streamVideos_yields fetch dur videos opts⟩
  · intro m e he
    simp [processOne, he]
  · intro hpa run hrun
    rw [processVideos_eq fetch videos opts hpa] at hrun
    cases Option.some.inj hrun
    obtain ⟨hres, -, -⟩ := processBatches_spec fetch
      (videos.filter (fun v => !(opts.skipIds.contains v.videoId))).length
      opts.pauseDuration
      (chunkList opts.pauseAfter
        (videos.filter (fun v => !(opts.skipIds.contains v.videoId)))) 0
    rw [hres, chunkList_join]

/-- C9: with `pauseAfter ≥ 1` the collect-mode call terminates and its batch
partition concatenates back to the filtered worklist — every non-skipped
candidate exactly once, in input order, each batch non-empty and at most
`pauseAfter` long, every batch but the last exactly `pauseAfter` long; with
`pauseAfter = 0` on a non-empty worklist the batch-building loop completes
under no amount of fuel and the call does not terminate. -/
theorem processVideos_termination_dichotomy (fetch : String → FetchOutcome)
    (videos : List WatchHistoryMeta) (opts : BulkOptions) :
    (1 ≤ opts.pauseAfter →
      (∃ run, processVideos fetch videos opts = some run) ∧
      batchLoop opts.pauseAfter
          (videos.filter (fun v => !(opts.skipIds.contains v.videoId)))
          (videos.filter (fun v => !(opts.skipIds.contains v.videoId))).length
          0 [] =
        some (chunkList opts.pauseAfter
          (videos.filter (fun v => !(opts.skipIds.contains v.videoId)))) ∧
      (chunkList opts.pauseAfter
          (videos.filter (fun v => !(opts.skipIds.contains v.videoId)))).flatten =
        videos.filter (fun v => !(opts.skipIds.contains v.videoId)) ∧
      (∀ b ∈ chunkList opts.pauseAfter
          (videos.filter (fun v => !(opts.skipIds.contains v.videoId))),
        b ≠ [] ∧ b.length ≤ opts.pauseAfter) ∧
      (∀ b ∈ (chunkList opts.pauseAfter
          (videos.filter (fun v => !(opts.skipIds.contains v.videoId)))).dropLast,
        b.length = opts.pauseAfter)) ∧
    (opts.pauseAfter = 0 →
      videos.filter (fun v => !(opts.skipIds.contains v.videoId)) ≠ [] →
      (∀ fuel acc, batchLoop 0
          (videos.filter (fun v => !(opts.skipIds.contains v.videoId)))
          fuel 0 acc = none) ∧
      processVideos fetch videos opts = none) := by
  constructor
  · intro hpa
    refine ⟨⟨_, processVideos_eq fetch videos opts hpa⟩, ?_,
      chunkList_join _ _, chunkList_sizes _ hpa _,
      chunkList_dropLast_sizes _ hpa _⟩
    have hb := batchLoop_eq_chunkList opts.pauseAfter hpa
      (videos.filter (fun v => !(opts.skipIds.contains v.videoId)))
      (videos.filter (fun v => !(opts.skipIds.contains v.videoId))).length 0 []
      (by
        have := Nat.le_mul_of_pos_right
          (videos.filter (fun v => !(opts.skipIds.contains v.videoId))).length hpa
        omega)
    simpa using hb
  · intro hpa0 hne
    have hlen : 0 <
        (videos.filter (fun v => !(opts.skipIds.contains v.videoId))).length :=
      List.length_pos.mpr hne
    refine ⟨fun fuel acc => batchLoop_zero_pa_diverges _ 0 hlen fuel acc, ?_⟩
    unfold processVideos
    dsimp only
    have hempF :
        (videos.filter (fun v => !(opts.skipIds.contains v.videoId))).isEmpty =
          false := by
      rcases hc : videos.filter (fun v => !(opts.skipIds.contains v.videoId)) with
        _ | ⟨x, xs⟩
      · exact absurd hc hne
      · rw [hc]
        rfl
    rw [hempF, hpa0, batchLoop_zero_pa_diverges _ 0 hlen _ _]
    simp

/-- C4 (amended): stream mode is strictly sequential — each attempt is
awaited before the next starts (consecutive yields never overlap in time) —
and it yields exactly one result per non-skipped candidate in input order,
regardless of the configured concurrency. -/
theorem streamVideos_sequential_amended (fetch : String → FetchOutcome)
    (dur : String → Nat) (videos : List WatchHistoryMeta)
    (opts : BulkOptions) :
    ((streamVideos fetch dur videos opts).yields.map (fun y => y.result) =
      (videos.filter (fun v => !(opts.skipIds.contains v.videoId))).map
        (processOne fetch)) ∧
    List.Chain' (fun a b => a.endTime ≤ b.startTime)
      (streamVideos fetch dur videos opts).yields :=
  ⟨streamVideos_yields fetch dur videos opts,
    streamVideos_chain fetch dur videos opts⟩

/-- Counterexample to C4 as stated: with concurrency 2 and one batch of two
attempts of durations 10 and 1, the source's stream yields in input order —
the second attempt starts only at time 10, when the first completes — while
the claimed concurrent-dispatch semantics completes and yields the second
attempt first (at time 1). -/
theorem streamVideos_completion_order_cex :
    ((streamVideos failFetch durAB [mA, mB] cexOpts).yields.map
        (fun y => (y.result.meta.videoId, y.startTime, y.endTime)) =
      [("a", 0, 10), ("b", 10, 11)]) ∧
    ((specBatchYields failFetch durAB cexOpts.concurrency [mA, mB]).map
        (fun p => (p.1.meta.videoId, p.2)) = [("b", 1), ("a", 10)]) ∧
    ((streamVideos failFetch durAB [mA, mB] cexOpts).yields.map
        (fun y => y.result.meta.videoId) ≠
      (specBatchYields failFetch durAB cexOpts.concurrency [mA, mB]).map
        (fun p => p.1.meta.videoId)) := by
  decide

/-- C5 (amended): in collect mode the scheduler idles after every batch
except the last, and only for a positive `pauseDuration`; in stream mode it
idles after every `pauseAfter`-th completed attempt — `⌊n / pauseAfter⌋`
idles in total, including one after the final batch whenever the worklist
length is a positive multiple of `pauseAfter`. -/
theorem scheduler_pause_counts_amended (fetch : String → FetchOutcome)
    (dur : String → Nat) (videos : List WatchHistoryMeta)
    (opts : BulkOptions) (hpa : 1 ≤ opts.pauseAfter) :
    (∀ run, processVideos fetch videos opts = some run →
      run.pauses =
        (if 0 < opts.pauseDuration then
          (chunkList opts.pauseAfter
            (videos.filter (fun v => !(opts.skipIds.contains v.videoId)))).length - 1
        else 0)) ∧
    ((streamVideos fetch dur videos opts).pauses =
      (if 0 < opts.pauseDuration then
        (videos.filter (fun v => !(opts.skipIds.contains v.videoId))).length /
          opts.pauseAfter
      else 0)) := by
  refine ⟨?_, streamVideos_pauses fetch dur videos opts hpa⟩
  intro run hrun
  rw [processVideos_eq fetch videos opts hpa] at hrun
  cases Option.some.inj hrun
  exact (processBatches_spec fetch
    (videos.filter (fun v => !(opts.skipIds.contains v.videoId))).length
    opts.pauseDuration
    (chunkList opts.pauseAfter
      (videos.filter (fun v => !(opts.skipIds.contains v.videoId)))) 0).2.2

/-- Witness for C5 (amended) at `pauseAfter = 2`, `pauseDuration = 100` over
two candidates. -/
theorem scheduler_pause_counts_amended_witness :
    (∀ run, processVideos failFetch [mA, mB] opts5 = some run →
      run.pauses =
        (if 0 < opts5.pauseDuration then
          (chunkList opts5.pauseAfter
            ([mA, mB].filter (fun v => !(opts5.skipIds.contains v.videoId)))).length - 1
        else 0)) ∧
    ((streamVideos failFetch durAB [mA, mB] opts5).pauses =
      (if 0 < opts5.pauseDuration then
        ([mA, mB].filter (fun v => !(opts5.skipIds.contains v.videoId))).length /
          opts5.pauseAfter
      else 0)) :=
  scheduler_pause_counts_amended failFetch durAB [mA, mB] opts5 (by decide)

/-- Counterexample to C5 as stated: with `pauseAfter = 2`,
`pauseDuration = 100` and two candidates there is exactly one batch — the
final one — yet the stream mode takes one idle after it, where the claim
requires none (collect mode indeed takes none). -/
theorem stream_final_batch_pause_cex :
    (streamVideos failFetch durAB [mA, mB] opts5).pauses = 1 ∧
    Option.map CollectRun.pauses (processVideos failFetch [mA, mB] opts5) =
      some 0 ∧
    (chunkList opts5.pauseAfter [mA, mB]).length = 1 := by
  refine ⟨by decide, by decide, ?_⟩
  simp [chunkList_cons, chunkList_nil, opts5]

/-- C6 (amended): in collect mode the progress callback is invoked exactly
once per completed attempt, the k-th invocation carrying
(k+1, worklist length, k-th result); in stream mode the callback is never
invoked (the options destructuring does not extract it and no call site
exists). -/
theorem progress_callback_amended (fetch : String → FetchOutcome)
    (dur : String → Nat) (videos : List WatchHistoryMeta)
    (opts : BulkOptions) (hpa : 1 ≤ opts.pauseAfter) :
    (∀ run, processVideos fetch videos opts = some run →
      run.progress.length = run.results.length ∧
      ∀ k, run.progress[k]? = (run.results[k]?).map
        (fun r => (⟨k + 1,
          (videos.filter (fun v => !(opts.skipIds.contains v.videoId))).length,
          r⟩ : ProgressCall))) ∧
    ((streamVideos fetch dur videos opts).progress = []) := by
  refine ⟨?_, streamVideos_progress fetch dur videos opts⟩
  intro run hrun
  rw [processVideos_eq fetch videos opts hpa] at hrun
  cases Option.some.inj hrun
  obtain ⟨hres, hprog, -⟩ := processBatches_spec fetch
    (videos.filter (fun v => !(opts.skipIds.contains v.videoId))).length
    opts.pauseDuration
    (chunkList opts.pauseAfter
      (videos.filter (fun v => !(opts.skipIds.contains v.videoId)))) 0
  constructor
  · rw [hres, hprog, progressTrace_length]
  · intro k
    rw [hres, hprog, progressTrace_getElem]
    simp [Nat.zero_add]

/-- Witness for C6 (amended) at one candidate with default options. -/
theorem progress_callback_amended_witness :
    (∀ run, processVideos failFetch [mA] defOpts = some run →
      run.progress.length = run.results.length ∧
      ∀ k, run.progress[k]? = (run.results[k]?).map
        (fun r => (⟨k + 1,
          ([mA].filter (fun v => !(defOpts.skipIds.contains v.videoId))).length,
          r⟩ : ProgressCall))) ∧
    ((streamVideos failFetch durAB [mA] defOpts).progress = []) :=
  progress_callback_amended failFetch durAB [mA] defOpts (by decide)

/-- Counterexample to C6 as stated: a stream run completes one attempt but
records zero progress invocations. -/
theorem stream_progress_absent_cex :
    (streamVideos failFetch durAB [mA] defOpts).yields.length = 1 ∧
    (streamVideos failFetch durAB [mA] defOpts).progress = [] := by
  decide

/-! ## Lemmas on mergeVideoSources -/

lemma foldl_insertIfNew_filter (id : String) :
    ∀ (l acc : List WatchHistoryMeta),
    (List.foldl insertIfNew acc l).filter (fun m => decide (m.videoId = id)) =
      acc.filter (fun m => decide (m.videoId = id)) ++
        (if acc.any (fun m => decide (m.videoId = id)) then []
         else (l.find? (fun m => decide (m.videoId = id))).toList) := by
  intro l
  induction l with
  | nil =>
    intro acc
    by_cases hid : acc.any (fun m => decide (m.videoId = id)) <;>
      simp [hid]
  | cons m ms ih =>
    intro acc
    show (List.foldl insertIfNew (insertIfNew acc m) ms).filter _ = _
    rw [ih (insertIfNew acc m)]
    by_cases hany : acc.any (fun x => decide (x.videoId = m.videoId)) = true
    · have hins : insertIfNew acc m = acc := by
        simp [insertIfNew, hany]
      rw [hins]
      by_cases hid : acc.any (fun x => decide (x.videoId = id)) = true
      · simp [hid]
      · have hmne : ¬ (m.videoId = id) := by
          intro he
          apply hid
          obtain ⟨x, hx, hxe⟩ := List.any_eq_true.mp hany
          refine List.any_eq_true.mpr ⟨x, hx, ?_⟩
          simp only [decide_eq_true_eq] at hxe ⊢
          rw [hxe, he]
        rw [List.find?_cons_of_neg _ (by simpa using hmne)]
    · have hins : insertIfNew acc m = acc ++ [m] := by
        simp only [insertIfNew]
        rw [if_neg (by simpa using hany)]
      rw [hins]
      by_cases hm : m.videoId = id
      · have hidF : acc.any (fun x => decide (x.videoId = id)) = false := by
          rw [Bool.eq_false_iff]
          intro hc
          apply hany
          obtain ⟨x, hx, hxe⟩ := List.any_eq_true.mp hc
          refine List.any_eq_true.mpr ⟨x, hx, ?_⟩
          simp only [decide_eq_true_eq] at hxe ⊢
          rw [hxe, hm]
        have happend : (acc ++ [m]).any (fun x => decide (x.videoId = id)) = true := by
          refine List.any_eq_true.mpr ⟨m, by simp, by simpa using hm⟩
        rw [happend, List.find?_cons_of_pos _ (by simpa using hm)]
        simp [hidF, List.filter_append, hm]
      · have hfilter : (acc ++ [m]).filter (fun x => decide (x.videoId = id)) =
            acc.filter (fun x => decide (x.videoId = id)) := by
          simp [List.filter_append, hm]
        have hany2 : (acc ++ [m]).any (fun x => decide (x.videoId = id)) =
            acc.any (fun x => decide (x.videoId = id)) := by
          simp [List.any_append, hm]
        rw [hfilter, hany2, List.find?_cons_of_neg _ (by simpa using hm)]

lemma foldl_insertIfNew_mem :
    ∀ (l acc : List WatchHistoryMeta) (x : WatchHistoryMeta),
    x ∈ List.foldl insertIfNew acc l → x ∈ acc ∨ x ∈ l := by
  intro l
  induction l with
  | nil => intro acc x hx; exact Or.inl hx
  | cons m ms ih =>
    intro acc x hx
    rcases ih (insertIfNew acc m) x hx with h | h
    · by_cases hany : acc.any (fun y => decide (y.videoId = m.videoId)) = true
      · rw [insertIfNew, if_pos hany] at h
        exact Or.inl h
      · rw [insertIfNew, if_neg hany] at h
        rcases List.mem_append.mp h with h | h
        · exact Or.inl h
        · right
          simp only [List.mem_singleton] at h
          simp [h]
    · right
      simp [h]

/-- Merging is the fold of the single-record insertion over the concatenated
sources. -/
lemma mergeVideoSources_eq_foldl (sources : List (List WatchHistoryMeta)) :
    mergeVideoSources sources = List.foldl insertIfNew [] sources.flatten := by
  unfold mergeVideoSources
  generalize ([] : List WatchHistoryMeta) = acc
  induction sources generalizing acc with
  | nil => simp
  | cons src rest ih => simp [List.foldl_append, ih]

/-! ## Claim theorem: deduplication -/

/-- C8: `mergeVideoSources` is first-writer-wins — for every id occurring in
the inputs, the merged output holds exactly one record with that id, namely
the first record carrying it in the concatenation of the sources in argument
order (so the earliest source mentioning the id wins and later duplicates
are discarded), and the output holds nothing that was not in some source. -/
theorem mergeVideoSources_first_writer_wins
    (sources : List (List WatchHistoryMeta)) (id : String)
    (h : sources.flatten.any (fun m => decide (m.videoId = id)) = true) :
    (∃ m, sources.flatten.find? (fun m => decide (m.videoId = id)) = some m ∧
      (mergeVideoSources sources).filter (fun x => decide (x.videoId = id)) =
        [m]) ∧
    (∀ x ∈ mergeVideoSources sources, x ∈ sources.flatten) := by
  constructor
  · have hsome : (sources.flatten.find?
        (fun m => decide (m.videoId = id))).isSome := by
      rw [List.find?_isSome]
      obtain ⟨x, hx, hxe⟩ := List.any_eq_true.mp h
      exact ⟨x, hx, hxe⟩
    obtain ⟨m, hm⟩ := Option.isSome_iff_exists.mp hsome
    refine ⟨m, hm, ?_⟩
    rw [mergeVideoSources_eq_foldl, foldl_insertIfNew_filter id sources.flatten []]
    simp [hm]
  · intro x hx
    rw [mergeVideoSources_eq_foldl] at hx
    rcases foldl_insertIfNew_mem sources.flatten [] x hx with h2 | h2
    · exact absurd h2 (List.not_mem_nil x)
    · exact h2

/-- A second record with id `b` from a later source. -/
def mB2 : WatchHistoryMeta := { videoId := "b", source := "watch_later" }

/-- Witness for C8: with `b` occurring in both sources, the merge keeps the
history record and discards the watch-later duplicate. -/
theorem mergeVideoSources_first_writer_wins_witness :
    (∃ m, ([[mA, mB], [mB2]] : List (List WatchHistoryMeta)).flatten.find?
        (fun m => decide (m.videoId = "b")) = some m ∧
      (mergeVideoSources [[mA, mB], [mB2]]).filter
        (fun x => decide (x.videoId = "b")) = [m]) ∧
    (∀ x ∈ mergeVideoSources [[mA, mB], [mB2]],
      x ∈ ([[mA, mB], [mB2]] : List (List WatchHistoryMeta)).flatten) :=
  mergeVideoSources_first_writer_wins [[mA, mB], [mB2]] "b" (by decide)

/-! ## Lemmas and claim theorems: loaders and identifier validation -/

lemma extractVideoId_valid (parseUrl : String → Option ParsedUrl)
    (input id : String) (h : extractVideoId parseUrl input = some id) :
    isValidVideoId id = true := by
  unfold extractVideoId at h
  by_cases hb : isValidVideoId input = true
  · rw [if_pos hb] at h
    cases Option.some.inj h
    exact hb
  · rw [if_neg hb] at h
    cases hp : parseUrl input with
    | none => rw [hp] at h; exact Option.noConfusion h
    | some p =>
      rw [hp] at h
      dsimp only at h
      rcases hc : (if p.hostname = "www.youtube.com" ∨ p.hostname = "youtube.com" ∨
            p.hostname = "m.youtube.com" then
          if jsStartsWith p.pathname "/embed/" then some (strDrop p.pathname 7)
          else p.searchV
        else if p.hostname = "youtu.be" then some (strDrop p.pathname 1)
        else none) with _ | cand
      · rw [hc] at h
        exact Option.noConfusion h
      · rw [hc] at h
        dsimp only at h
        by_cases hv : isValidVideoId cand = true
        · rw [if_pos hv] at h
          cases Option.some.inj h
          exact hv
        · rw [if_neg hv] at h
          exact Option.noConfusion h

lemma loadWatchHistory_videoId_ne (parseUrl : String → Option ParsedUrl) :
    ∀ (items : List TakeoutHistoryItem) (m : WatchHistoryMeta),
    m ∈ loadWatchHistory parseUrl items → m.videoId ≠ "" := by
  intro items
  induction items with
  | nil => intro m hm; simp [loadWatchHistory] at hm
  | cons item rest ih =>
    intro m hm
    simp only [loadWatchHistory, List.foldr_cons] at hm
    rcases hurl : item.titleUrl with _ | url
    · rw [hurl] at hm
      exact ih m hm
    · rw [hurl] at hm
      dsimp only at hm
      by_cases hue : url = ""
      · rw [if_pos hue] at hm
        exact ih m hm
      · rw [if_neg hue] at hm
        rcases hex : extractVideoIdFromUrl parseUrl url with _ | vid
        · rw [hex] at hm
          exact ih m hm
        · rw [hex] at hm
          dsimp only at hm
          by_cases hve : vid = ""
          · rw [if_pos hve] at hm
            exact ih m hm
          · rw [if_neg hve] at hm
            rcases List.mem_cons.mp hm with rfl | hm2
            · exact hve
            · exact ih m hm2

lemma loadWatchLater_videoId_ne :
    ∀ (rows : List CSVRow) (m : WatchHistoryMeta),
    m ∈ loadWatchLater rows → m.videoId ≠ "" := by
  intro rows
  induction rows with
  | nil => intro m hm; simp [loadWatchLater] at hm
  | cons row rest ih =>
    intro m hm
    simp only [loadWatchLater, List.foldr_cons] at hm
    by_cases hve : jsOrStr (rowGet row "Video ID")
        (jsOrStr (rowGet row "video_id") (rowGet row "Video Id")) = ""
    · rw [if_pos hve] at hm
      exact ih m hm
    · rw [if_neg hve] at hm
      rcases List.mem_cons.mp hm with rfl | hm2
      · exact hve
      · exact ih m hm2

/-- C7 (amended): the three input paths guarantee different strengths of
identifier validation — manual input resolved through the (spec-modelled)
`extractVideoId` yields only valid 11-character `[A-Za-z0-9_-]` identifiers,
while the watch-history and watch-later loaders guarantee only that every
record they hand over carries a non-empty `videoId` string, passing the raw
`v` parameter, `youtu.be` path remainder, or CSV id column through without
the 11-character validation. -/
theorem loader_videoId_guarantees :
    (∀ (parseUrl : String → Option ParsedUrl) (input id : String),
      extractVideoId parseUrl input = some id → isValidVideoId id = true) ∧
    (∀ (parseUrl : String → Option ParsedUrl) (inputs : List String)
        (m : WatchHistoryMeta), m ∈ fromVideoIds parseUrl inputs →
      isValidVideoId m.videoId = true) ∧
    (∀ (parseUrl : String → Option ParsedUrl)
        (items : List TakeoutHistoryItem) (m : WatchHistoryMeta),
      m ∈ loadWatchHistory parseUrl items → m.videoId ≠ "") ∧
    (∀ (rows : List CSVRow) (m : WatchHistoryMeta),
      m ∈ loadWatchLater rows → m.videoId ≠ "") := by
  refine ⟨extractVideoId_valid, ?_, loadWatchHistory_videoId_ne,
    loadWatchLater_videoId_ne⟩
  intro parseUrl inputs
  induction inputs with
  | nil => intro m hm; simp [fromVideoIds] at hm
  | cons input rest ih =>
    intro m hm
    simp only [fromVideoIds, List.foldr_cons] at hm
    rcases hex : extractVideoId parseUrl input with _ | vid
    · rw [hex] at hm
      exact ih m hm
    · rw [hex] at hm
      rcases List.mem_cons.mp hm with rfl | hm2
      · exact extractVideoId_valid parseUrl input vid hex
      · exact ih m hm2

/-- A URL-parse oracle for the single short-id URL of the counterexample. -/
def puAbc : String → Option ParsedUrl := fun s =>
  if s = "https://www.youtube.com/watch?v=abc" then
    some { hostname := "www.youtube.com", searchV := some "abc",
           pathname := "/watch" }
  else none

/-- A history entry whose URL carries a 3-character `v` parameter. -/
def shortItem : TakeoutHistoryItem :=
  { titleUrl := some "https://www.youtube.com/watch?v=abc" }

/-- Counterexample to C7 as stated: the watch-history loader hands over the
3-character id `abc` unvalidated, and the watch-later loader hands over any
non-empty CSV value; neither rejects input failing the 11-character
pattern. -/
theorem loader_short_id_cex :
    (loadWatchHistory puAbc [shortItem]).map (fun m => m.videoId) = ["abc"] ∧
    isValidVideoId "abc" = false ∧
    (loadWatchLater [[("Video ID", "xyz")]]).map (fun m => m.videoId) =
      ["xyz"] ∧
    isValidVideoId "xyz" = false := by
  decide

/-! ## Lemmas and claim theorem: the track selector -/

lemma selectForLang_none_iff (tracks : List CaptionTrack) (lang : String) :
    selectForLang tracks lang = none ↔ matchingTracks tracks lang = [] := by
  unfold selectForLang
  cases hf : (matchingTracks tracks lang).find? isManualB with
  | some t =>
    simp only
    constructor
    · intro hc
      exact Option.noConfusion hc
    · intro hc
      rw [hc] at hf
      exact Option.noConfusion hf
  | none =>
    simp only
    cases hsub : matchingTracks tracks lang with
    | nil => simp
    | cons t ts => simp

lemma selectForLang_mem (tracks : List CaptionTrack) (lang : String)
    (t : CaptionTrack) (h : selectForLang tracks lang = some t) :
    t ∈ tracks := by
  unfold selectForLang at h
  cases hf : (matchingTracks tracks lang).find? isManualB with
  | some m =>
    rw [hf] at h
    cases Option.some.inj h
    exact List.mem_of_mem_filter (List.mem_of_find?_eq_some hf)
  | none =>
    rw [hf] at h
    have : t ∈ matchingTracks tracks lang :=
      List.mem_of_mem_head? (Option.mem_def.mpr h)
    exact List.mem_of_mem_filter this

lemma selectPreferred_mem (tracks : List CaptionTrack) :
    ∀ (prefs : List String) (t : CaptionTrack),
    selectPreferred tracks prefs = some t → t ∈ tracks := by
  intro prefs
  induction prefs with
  | nil => intro t h; exact Option.noConfusion h
  | cons lang rest ih =>
    intro t h
    unfold selectPreferred at h
    cases hf : selectForLang tracks lang with
    | some m =>
      rw [hf] at h
      cases Option.some.inj h
      exact selectForLang_mem tracks lang t hf
    | none =>
      rw [hf] at h
      exact ih t h

lemma selectPreferred_all_empty (tracks : List CaptionTrack) :
    ∀ (prefs : List String),
    (∀ l ∈ prefs, matchingTracks tracks l = []) →
    selectPreferred tracks prefs = none := by
  intro prefs
  induction prefs with
  | nil => intro _; rfl
  | cons lang rest ih =>
    intro h
    unfold selectPreferred
    rw [(selectForLang_none_iff tracks lang).mpr (h lang (by simp))]
    exact ih (fun l hl => h l (by simp [hl]))

lemma selectPreferred_first_match (tracks : List CaptionTrack)
    (lang : String) (post : List String)
    (hlang : matchingTracks tracks lang ≠ []) :
    ∀ (pre : List String), (∀ l ∈ pre, matchingTracks tracks l = []) →
    selectPreferred tracks (pre ++ lang :: post) =
      selectForLang tracks lang := by
  intro pre
  induction pre with
  | nil =>
    intro _
    show selectPreferred tracks (lang :: post) = _
    unfold selectPreferred
    cases hf : selectForLang tracks lang with
    | some t => rfl
    | none => exact absurd ((selectForLang_none_iff tracks lang).mp hf) hlang
  | cons p pre ih =>
    intro hpre
    show selectPreferred tracks (p :: (pre ++ lang :: post)) = _
    unfold selectPreferred
    rw [(selectForLang_none_iff tracks p).mpr (hpre p (by simp))]
    exact ih (fun l hl => hpre l (by simp [hl]))

lemma selectTrack_of_selectPreferred_some (tracks : List CaptionTrack)
    (prefs : List String) (t : CaptionTrack) (hne : tracks ≠ [])
    (h : selectPreferred tracks prefs = some t) :
    selectTrack tracks prefs = some t := by
  cases tracks with
  | nil => exact absurd rfl hne
  | cons t0 ts =>
    unfold selectTrack
    rw [h]

/-- C3: the track selector (modelled from the spec, its source file being
absent from the staged sources) always returns a member of a non-empty
catalog; for the earliest preferred tag whose prefix-matching subset is
non-empty it returns that subset's first manual track in original order, or
the subset's first track when no manual one exists — so a later-preferred
language's manual track never overrides an earlier-preferred language with
only auto-generated tracks; when no preferred tag matches anything it
returns the catalog's first track unconditionally; and on the spec's
cross-language example (preferences es,en over es-auto and en-manual) it
picks the Spanish auto-generated track. -/
theorem selectTrack_preference_rules :
    (∀ (tracks : List CaptionTrack) (prefs : List String), tracks ≠ [] →
      ∃ t, selectTrack tracks prefs = some t ∧ t ∈ tracks) ∧
    (∀ (tracks : List CaptionTrack) (pre : List String) (lang : String)
        (post : List String),
      (∀ l ∈ pre, matchingTracks tracks l = []) →
      matchingTracks tracks lang ≠ [] →
      ((∀ m, (matchingTracks tracks lang).find? isManualB = some m →
        selectTrack tracks (pre ++ lang :: post) = some m) ∧
       ((matchingTracks tracks lang).find? isManualB = none →
        selectTrack tracks (pre ++ lang :: post) =
          (matchingTracks tracks lang).head?))) ∧
    (∀ (tracks : List CaptionTrack) (prefs : List String),
      (∀ l ∈ prefs, matchingTracks tracks l = []) →
      selectTrack tracks prefs = tracks.head?) ∧
    (selectTrack
        [{ languageCode := "es", kind := TrackKind.autoGenerated },
         { languageCode := "en", kind := TrackKind.manual }] ["es", "en"] =
      some { languageCode := "es", kind := TrackKind.autoGenerated }) := by
  have htracks_ne : ∀ (tracks : List CaptionTrack) (lang : String),
      matchingTracks tracks lang ≠ [] → tracks ≠ [] := by
    intro tracks lang h hc
    rw [hc] at h
    exact h rfl
  refine ⟨?_, ?_, ?_, by decide⟩
  · intro tracks prefs hne
    cases tracks with
    | nil => exact absurd rfl hne
    | cons t0 ts =>
      unfold selectTrack
      cases hp : selectPreferred (t0 :: ts) prefs with
      | some t =>
        exact ⟨t, rfl, selectPreferred_mem _ prefs t hp⟩
      | none =>
        exact ⟨t0, rfl, by simp⟩
  · intro tracks pre lang post hpre hlang
    have hsel : selectPreferred tracks (pre ++ lang :: post) =
        selectForLang tracks lang :=
      selectPreferred_first_match tracks lang post hlang pre hpre
    constructor
    · intro m hm
      refine selectTrack_of_selectPreferred_some tracks _ m
        (htracks_ne tracks lang hlang) ?_
      rw [hsel]
      unfold selectForLang
      rw [hm]
    · intro hnone
      rcases hsub : matchingTracks tracks lang with _ | ⟨s0, ss⟩
      · exact absurd hsub hlang
      · refine selectTrack_of_selectPreferred_some tracks _ s0
          (htracks_ne tracks lang hlang) ?_
        rw [hsel]
        unfold selectForLang
        rw [hnone, hsub]
        rfl
  · intro tracks prefs hall
    have hp := selectPreferred_all_empty tracks prefs hall
    cases tracks with
    | nil => rfl
    | cons t0 ts =>
      unfold selectTrack
      rw [hp]
      rfl

/-! ## Lemmas and claim theorem: loadProcessedIds -/

lemma jsSame_eq (a b : Json) (h : jsSame a b = true) : a = b := by
  cases a <;> cases b <;> simp_all [jsSame]

lemma setAdd_mem (s : List Json) (v x : Json) :
    x ∈ setAdd s v ↔ x ∈ s ∨ x = v := by
  unfold setAdd
  by_cases h : s.any (fun y => jsSame y v) = true
  · rw [if_pos h]
    constructor
    · exact Or.inl
    · rintro (hx | rfl)
      · exact hx
      · obtain ⟨y, hy, hye⟩ := List.any_eq_true.mp h
        rwa [jsSame_eq y x hye] at hy
  · rw [if_neg h]
    simp

lemma processLine_mem (parse : String → Option Json) (ids : List Json)
    (line : String) (v : Json) :
    v ∈ processLine parse ids line ↔
      v ∈ ids ∨ ∃ j, parse line = some j ∧ recordId j = some v := by
  unfold processLine
  cases hp : parse line with
  | none => simp
  | some j =>
    dsimp only
    cases hr : recordId j with
    | none => simp [hr]
    | some w =>
      dsimp only
      rw [setAdd_mem]
      simp only [Option.some.injEq]
      constructor
      · rintro (hv | rfl)
        · exact Or.inl hv
        · exact Or.inr ⟨j, rfl, hr⟩
      · rintro (hv | ⟨j2, rfl, hj2⟩)
        · exact Or.inl hv
        · exact Or.inr (Option.some.inj (hr.symm.trans hj2)).symm

lemma foldl_processLine_mem (parse : String → Option Json) :
    ∀ (lines : List String) (acc : List Json) (v : Json),
    v ∈ lines.foldl (processLine parse) acc ↔
      v ∈ acc ∨ ∃ line ∈ lines, ∃ j, parse line = some j ∧
        recordId j = some v := by
  intro lines
  induction lines with
  | nil => intro acc v; simp
  | cons line rest ih =>
    intro acc v
    rw [List.foldl_cons, ih (processLine parse acc line) v]
    rw [processLine_mem]
    constructor
    · rintro ((hv | ⟨j, hj, hjv⟩) | ⟨l, hl, j, hj, hjv⟩)
      · exact Or.inl hv
      · exact Or.inr ⟨line, by simp, j, hj, hjv⟩
      · exact Or.inr ⟨l, by simp [hl], j, hj, hjv⟩
    · rintro (hv | ⟨l, hl, j, hj, hjv⟩)
      · exact Or.inl (Or.inl hv)
      · rcases List.mem_cons.mp hl with rfl | hl2
        · exact Or.inl (Or.inr ⟨j, hj, hjv⟩)
        · exact Or.inr ⟨l, hl2, j, hj, hjv⟩

/-- C10: `loadProcessedIds` is total — a missing or unreadable file yields
the empty set, and for any content the returned set holds exactly the
truthy ids (`meta.videoId` first, else top-level `videoId`) of the lines
that survive the blank-line filter and parse as JSON; malformed lines are
skipped silently. -/
theorem loadProcessedIds_characterization (parse : String → Option Json) :
    (loadProcessedIds parse none = []) ∧
    (∀ (text : String) (v : Json),
      v ∈ loadProcessedIds parse (some text) ↔
        ∃ line ∈ (text.splitOn "\n").filter trimTruthy, ∃ j,
          parse line = some j ∧ recordId j = some v) := by
  constructor
  · rfl
  · intro text v
    unfold loadProcessedIds
    rw [foldl_processLine_mem]
    simp

end YTranscript
